import Mathlib

/-!
Verification of the `ClsHead` classification head
(`mmaction/models/heads/cls_head.py`): the unit-hypersphere embedding
pipeline, its class-mixing and geodesic-sampling augmenters, the
construction-time adaptive per-class angular std vector, and the
forward / loss orchestration.

Tensors are modelled per sample as vectors `Fin n → ℝ`; batch operations
in the source are data-parallel over independent samples, so per-sample
statements carry over verbatim.  Machine floats are modelled as real
numbers.  External collaborators (the angular score layer, dropout, the
channel projector, the configured loss functions) are abstract function
parameters, matching their black-box contracts.
-/

namespace ClsHead

/-- Dot product of two real vectors: models `torch.sum(a * b, dim=1)`
for one sample of the batch. -/
noncomputable def dot (n : ℕ) (u v : Fin n → ℝ) : ℝ :=
  ∑ i, u i * v i

/-- Squared Euclidean norm of a vector. -/
noncomputable def norm2 (n : ℕ) (v : Fin n → ℝ) : ℝ :=
  dot n v v

/-- Modelled from the spec: the hypersphere normalize primitive
(`mmaction.core.ops.normalize` / `torch.nn.functional.normalize`, whose
source is not part of the two files under study) returns
`v / max(‖v‖, ε)` for a small floor `ε`, per sample (spec §4.3). -/
noncomputable def normalizeV (n : ℕ) (ε : ℝ) (v : Fin n → ℝ) : Fin n → ℝ :=
  fun i => v i / max (Real.sqrt (norm2 n v)) ε

theorem norm2_nonneg (n : ℕ) (v : Fin n → ℝ) : 0 ≤ norm2 n v := by
  unfold norm2 dot
  exact Finset.sum_nonneg fun i _ => mul_self_nonneg (v i)

theorem dot_combo (n : ℕ) (a b : ℝ) (u v w : Fin n → ℝ) :
    dot n u (fun i => a * v i + b * w i) = a * dot n u v + b * dot n u w := by
  unfold dot
  calc ∑ i, u i * (a * v i + b * w i)
      = ∑ i, (a * (u i * v i) + b * (u i * w i)) :=
        Finset.sum_congr rfl fun i _ => by ring
    _ = a * ∑ i, u i * v i + b * ∑ i, u i * w i := by
        rw [Finset.sum_add_distrib, Finset.mul_sum, Finset.mul_sum]

theorem norm2_combo (n : ℕ) (a b : ℝ) (v w : Fin n → ℝ) :
    norm2 n (fun i => a * v i + b * w i)
      = a ^ 2 * norm2 n v + 2 * a * b * dot n v w + b ^ 2 * norm2 n w := by
  unfold norm2 dot
  calc ∑ i, (a * v i + b * w i) * (a * v i + b * w i)
      = ∑ i, (a ^ 2 * (v i * v i) + (2 * a * b * (v i * w i) + b ^ 2 * (w i * w i))) :=
        Finset.sum_congr rfl fun i _ => by ring
    _ = a ^ 2 * ∑ i, v i * v i
          + (2 * a * b * ∑ i, v i * w i + b ^ 2 * ∑ i, w i * w i) := by
        rw [Finset.sum_add_distrib, Finset.sum_add_distrib,
          Finset.mul_sum, Finset.mul_sum, Finset.mul_sum]
    _ = _ := by ring

theorem dot_div_right (n : ℕ) (u v : Fin n → ℝ) (a : ℝ) :
    dot n u (fun i => v i / a) = dot n u v / a := by
  unfold dot
  rw [Finset.sum_div]
  exact Finset.sum_congr rfl fun i _ => by ring

theorem norm2_div (n : ℕ) (v : Fin n → ℝ) (a : ℝ) :
    norm2 n (fun i => v i / a) = norm2 n v / a ^ 2 := by
  unfold norm2 dot
  rw [Finset.sum_div]
  exact Finset.sum_congr rfl fun i _ => by
    rw [div_mul_div_comm, sq]

/-- Cauchy–Schwarz for the explicit dot product. -/
theorem dot_sq_le (n : ℕ) (u v : Fin n → ℝ) :
    dot n u v ^ 2 ≤ norm2 n u * norm2 n v := by
  have h := Finset.sum_mul_sq_le_sq_mul_sq Finset.univ u v
  have hu : ∑ i, u i ^ 2 = norm2 n u :=
    Finset.sum_congr rfl fun i _ => sq (u i)
  have hv : ∑ i, v i ^ 2 = norm2 n v :=
    Finset.sum_congr rfl fun i _ => sq (v i)
  calc dot n u v ^ 2 = (∑ i, u i * v i) ^ 2 := rfl
    _ ≤ (∑ i, u i ^ 2) * ∑ i, v i ^ 2 := h
    _ = norm2 n u * norm2 n v := by rw [hu, hv]

theorem norm2_normalizeV_le_one (n : ℕ) (ε : ℝ) (v : Fin n → ℝ) (hε : 0 < ε) :
    norm2 n (normalizeV n ε v) ≤ 1 := by
  have hM : 0 < max (Real.sqrt (norm2 n v)) ε := lt_max_of_lt_right hε
  have hle : norm2 n v ≤ (max (Real.sqrt (norm2 n v)) ε) ^ 2 := by
    calc norm2 n v = Real.sqrt (norm2 n v) ^ 2 :=
          (Real.sq_sqrt (norm2_nonneg n v)).symm
      _ ≤ (max (Real.sqrt (norm2 n v)) ε) ^ 2 :=
          pow_le_pow_left₀ (Real.sqrt_nonneg _) (le_max_left _ _) 2
  have : norm2 n (normalizeV n ε v)
      = norm2 n v / (max (Real.sqrt (norm2 n v)) ε) ^ 2 := norm2_div n v _
  rw [this]
  exact div_le_one_of_le₀ hle (le_of_lt (pow_pos hM 2))

/- ### Class mixing: negative-class index remap (`_mix_embd`, lines 103–105)

`sampled_ids = torch.randint_like(labels, 0, num_classes - 1)` draws a
candidate in `[0, num_classes - 1)` and
`sampled_neg_ids = torch.where(sampled_ids < labels, sampled_ids, sampled_ids + 1)`
remaps it. -/

/-- The negative-class remap of `_mix_embd`: keep the candidate if it is
below the true label, otherwise shift it up by one. -/
def remapNeg (s y : ℕ) : ℕ :=
  if s < y then s else s + 1

/-- C2: for every true label `y < num_classes` and candidate
`s < num_classes - 1`, the remapped negative index avoids `y`, lands in
`[0, num_classes)`, the remap is injective on the candidate range, and
every class other than `y` has exactly one preimage — so a uniform draw
of the candidate reaches each other class with probability
`1/(num_classes - 1)`. -/
theorem mix_remap_bijection (n y : ℕ) (hy : y < n) :
    (∀ s, s < n - 1 → remapNeg s y ≠ y ∧ remapNeg s y < n)
    ∧ (∀ s₁ s₂, s₁ < n - 1 → s₂ < n - 1 →
        remapNeg s₁ y = remapNeg s₂ y → s₁ = s₂)
    ∧ (∀ t, t < n → t ≠ y → ∃! s, s < n - 1 ∧ remapNeg s y = t) := by
  refine ⟨?_, ?_, ?_⟩
  · intro s hs
    unfold remapNeg
    split <;> omega
  · intro s₁ s₂ h₁ h₂ heq
    unfold remapNeg at heq
    split at heq <;> split at heq <;> omega
  · intro t ht hne
    by_cases hty : t < y
    · refine ⟨t, ⟨⟨by omega, ?_⟩, ?_⟩⟩
      · unfold remapNeg
        rw [if_pos hty]
      · rintro s ⟨hs1, hs2⟩
        unfold remapNeg at hs2
        split at hs2 <;> omega
    · refine ⟨t - 1, ⟨⟨by omega, ?_⟩, ?_⟩⟩
      · unfold remapNeg
        rw [if_neg (by omega)]
        omega
      · rintro s ⟨hs1, hs2⟩
        unfold remapNeg at hs2
        split at hs2 <;> omega

/-- Witness for `mix_remap_bijection` at `num_classes = 5`, `y = 2`. -/
theorem mix_remap_bijection_witness :
    2 < 5
    ∧ ((∀ s, s < 5 - 1 → remapNeg s 2 ≠ 2 ∧ remapNeg s 2 < 5)
      ∧ (∀ s₁ s₂, s₁ < 5 - 1 → s₂ < 5 - 1 →
          remapNeg s₁ 2 = remapNeg s₂ 2 → s₁ = s₂)
      ∧ (∀ t, t < 5 → t ≠ 2 → ∃! s, s < 5 - 1 ∧ remapNeg s 2 = t)) :=
  ⟨by omega, mix_remap_bijection 5 2 (by omega)⟩

theorem dot_comm (n : ℕ) (u v : Fin n → ℝ) : dot n u v = dot n v u := by
  unfold dot
  exact Finset.sum_congr rfl fun i _ => mul_comm _ _

/- ### Geodesic sampling (`_sample_embd`, lines 114–135) -/

/-- Tangent projection of `_sample_embd`:
`orthogonal_directions = unit_directions - dot_prod * norm_embd`,
not renormalized. -/
noncomputable def orthComp (n : ℕ) (e d : Fin n → ℝ) : Fin n → ℝ :=
  fun i => d i - dot n e d * e i

/-- Angle used by `_sample_embd`:
`torch.clamp_max(torch.where(angles > 0, angles, torch.neg(angles)), 0.5 * π)`
applied to `angles = angle_std * z`; the `where` computes an absolute
value and `clamp_max` a minimum. -/
noncomputable def clampAngle (std z : ℝ) : ℝ :=
  min |std * z| (Real.pi / 2)

/-- One sample of `_sample_embd` after the per-sample angular std has
been resolved: draw direction `g`, normalize it, project out the
component parallel to the embedding `e`, and rotate
`cos(angle) * e + sin(angle) * orth`. -/
noncomputable def sampleEmbd (n : ℕ) (ε : ℝ) (e g : Fin n → ℝ) (std z : ℝ) : Fin n → ℝ :=
  let d := normalizeV n ε g
  fun i => Real.cos (clampAngle std z) * e i
    + Real.sin (clampAngle std z) * orthComp n e d i

theorem dot_orthComp (n : ℕ) (e d : Fin n → ℝ) (he : norm2 n e = 1) :
    dot n e (orthComp n e d) = 0 := by
  have h : orthComp n e d = fun i => 1 * d i + -(dot n e d) * e i :=
    funext fun i => by unfold orthComp; ring
  rw [h, dot_combo, show dot n e e = 1 from he]
  ring

theorem norm2_orthComp (n : ℕ) (e d : Fin n → ℝ) (he : norm2 n e = 1) :
    norm2 n (orthComp n e d) = norm2 n d - dot n e d ^ 2 := by
  have h : orthComp n e d = fun i => 1 * d i + -(dot n e d) * e i :=
    funext fun i => by unfold orthComp; ring
  rw [h, norm2_combo, dot_comm n d e, he]
  ring

/-- C1 (amended): for a unit input embedding, the geodesic sampling
output has squared norm `cos²(angle) + sin²(angle) * ‖orth‖²`, which is
at most `1` (it equals `1` only when the tangent projection is itself
unit, e.g. when the random direction is orthogonal to the embedding);
the inner product between input and output is `cos(angle) ≥ 0`, so the
angle between them never exceeds `π/2`. -/
theorem sample_embd_norm_le_one (n : ℕ) (ε : ℝ) (e g : Fin n → ℝ) (std z : ℝ)
    (he : norm2 n e = 1) (hε : 0 < ε) :
    norm2 n (sampleEmbd n ε e g std z)
        = Real.cos (clampAngle std z) ^ 2
          + Real.sin (clampAngle std z) ^ 2 * norm2 n (orthComp n e (normalizeV n ε g))
      ∧ norm2 n (sampleEmbd n ε e g std z) ≤ 1
      ∧ dot n e (sampleEmbd n ε e g std z) = Real.cos (clampAngle std z)
      ∧ 0 ≤ Real.cos (clampAngle std z) := by
  have horth0 : dot n e (orthComp n e (normalizeV n ε g)) = 0 :=
    dot_orthComp n e _ he
  have hsample : sampleEmbd n ε e g std z
      = fun i => Real.cos (clampAngle std z) * e i
        + Real.sin (clampAngle std z) * orthComp n e (normalizeV n ε g) i := rfl
  have hn2 : norm2 n (sampleEmbd n ε e g std z)
      = Real.cos (clampAngle std z) ^ 2
        + Real.sin (clampAngle std z) ^ 2 * norm2 n (orthComp n e (normalizeV n ε g)) := by
    rw [hsample, norm2_combo, he, horth0]
    ring
  have hα0 : 0 ≤ clampAngle std z :=
    le_min (abs_nonneg _) (by positivity)
  have hαle : clampAngle std z ≤ Real.pi / 2 := min_le_right _ _
  have hcos : 0 ≤ Real.cos (clampAngle std z) :=
    Real.cos_nonneg_of_mem_Icc ⟨by linarith [Real.pi_pos], hαle⟩
  have horthle : norm2 n (orthComp n e (normalizeV n ε g)) ≤ 1 := by
    rw [norm2_orthComp n e _ he]
    have hd1 := norm2_normalizeV_le_one n ε g hε
    nlinarith [sq_nonneg (dot n e (normalizeV n ε g))]
  refine ⟨hn2, ?_, ?_, hcos⟩
  · rw [hn2]
    have hs2 : Real.sin (clampAngle std z) ^ 2 * norm2 n (orthComp n e (normalizeV n ε g))
        ≤ Real.sin (clampAngle std z) ^ 2 * 1 :=
      mul_le_mul_of_nonneg_left horthle (sq_nonneg _)
    have hpyth : Real.sin (clampAngle std z) ^ 2 + Real.cos (clampAngle std z) ^ 2 = 1 :=
      Real.sin_sq_add_cos_sq _
    linarith
  · rw [hsample, dot_combo, horth0, show dot n e e = 1 from he]
    ring

/-- C1 (counterexample): with unit embedding `(1,0)`, random direction
`(3,4)` (normalized to `(3/5, 4/5)`), std `1` and normal draw `π/2`, the
rotation angle is `π/2` and the output is `(0, 4/5)`, of squared norm
`16/25 ≠ 1`: the geodesic sampling output is not unit-norm, because the
tangent projection is not renormalized. -/
theorem sample_embd_not_unit_norm :
    norm2 2 (sampleEmbd 2 (1/1000000000000) ![1, 0] ![3, 4] 1 (Real.pi / 2)) = 16/25
    ∧ ((16 : ℝ)/25) ≠ 1 := by
  have hg : norm2 2 (![3, 4] : Fin 2 → ℝ) = 25 := by
    simp [norm2, dot, Fin.sum_univ_two]
    norm_num
  have h5 : Real.sqrt 25 = 5 := by
    rw [show (25 : ℝ) = 5 ^ 2 by norm_num]
    exact Real.sqrt_sq (by norm_num)
  have hd : normalizeV 2 (1/1000000000000) (![3, 4] : Fin 2 → ℝ) = ![3/5, 4/5] := by
    funext i
    show (![3, 4] : Fin 2 → ℝ) i / max (Real.sqrt (norm2 2 ![3, 4])) (1/1000000000000) = _
    rw [hg, h5, max_eq_left (by norm_num)]
    fin_cases i <;> norm_num
  have hdot : dot 2 (![1, 0] : Fin 2 → ℝ) (![3/5, 4/5] : Fin 2 → ℝ) = 3/5 := by
    simp [dot, Fin.sum_univ_two]
  have horth : orthComp 2 (![1, 0] : Fin 2 → ℝ) (![3/5, 4/5] : Fin 2 → ℝ) = ![0, 4/5] := by
    funext i
    show (![3/5, 4/5] : Fin 2 → ℝ) i - dot 2 ![1, 0] ![3/5, 4/5] * (![1, 0] : Fin 2 → ℝ) i = _
    rw [hdot]
    fin_cases i <;> norm_num
  have hclamp : clampAngle 1 (Real.pi / 2) = Real.pi / 2 := by
    unfold clampAngle
    rw [one_mul, abs_of_nonneg (by positivity), min_self]
  have hout : sampleEmbd 2 (1/1000000000000) ![1, 0] ![3, 4] 1 (Real.pi / 2) = ![0, 4/5] := by
    funext i
    show Real.cos (clampAngle 1 (Real.pi / 2)) * (![1, 0] : Fin 2 → ℝ) i
        + Real.sin (clampAngle 1 (Real.pi / 2))
          * orthComp 2 ![1, 0] (normalizeV 2 (1/1000000000000) ![3, 4]) i = _
    rw [hclamp, Real.cos_pi_div_two, Real.sin_pi_div_two, hd, horth]
    ring
  constructor
  · rw [hout]
    simp [norm2, dot, Fin.sum_univ_two]
    norm_num
  · norm_num

/-- Witness for `sample_embd_norm_le_one` at a concrete input. -/
theorem sample_embd_norm_le_one_witness :
    norm2 2 ![(1:ℝ), 0] = 1 ∧ (0:ℝ) < 1
    ∧ (norm2 2 (sampleEmbd 2 1 ![1, 0] ![0, 0] 0 0)
          = Real.cos (clampAngle 0 0) ^ 2
            + Real.sin (clampAngle 0 0) ^ 2
              * norm2 2 (orthComp 2 ![1, 0] (normalizeV 2 1 ![0, 0]))
        ∧ norm2 2 (sampleEmbd 2 1 ![1, 0] ![0, 0] 0 0) ≤ 1
        ∧ dot 2 ![1, 0] (sampleEmbd 2 1 ![1, 0] ![0, 0] 0 0) = Real.cos (clampAngle 0 0)
        ∧ 0 ≤ Real.cos (clampAngle 0 0)) :=
  ⟨by simp [norm2, dot, Fin.sum_univ_two], by norm_num,
    sample_embd_norm_le_one 2 1 ![1, 0] ![0, 0] 0 0
      (by simp [norm2, dot, Fin.sum_univ_two]) (by norm_num)⟩

/- ### Per-sample angular std selection (`_sample_embd`, lines 121–128,
with the `sampling_angle_std` attribute set up in `__init__`, lines 66–75) -/

/-- The `sampling_angle_std` attribute as stored at construction: the
per-class vector buffer in adaptive mode, the global scalar otherwise. -/
def storedStd (adaptive : Bool) (stdVec : ℕ → ℝ) (globalStd : ℝ) : ℝ ⊕ (ℕ → ℝ) :=
  if adaptive then Sum.inr stdVec else Sum.inl globalStd

/-- Std object used by `_sample_embd` for one sample: when
`adaptive_sampling and labels is not None` holds, `expand` plus advanced
indexing pick out `sampling_angle_std[labels[i]]`, a scalar per sample;
otherwise `angle_std = sampling_angle_std` is the stored attribute
itself, whatever it is. -/
def angleStdUsed (adaptive : Bool) (label : Option ℕ) (stdVec : ℕ → ℝ) (globalStd : ℝ) :
    ℝ ⊕ (ℕ → ℝ) :=
  match adaptive, label with
  | true, some l => Sum.inl (stdVec l)
  | _, _ => storedStd adaptive stdVec globalStd

/-- C3 (amended): with adaptive sampling on and a label available the
per-sample std is the label's entry of the per-class vector, and with
adaptive sampling off the global scalar is used — but with adaptive
sampling on and labels absent the object used is the whole per-class
vector buffer (broadcast downstream), not a global scalar. -/
theorem angle_std_selection (stdVec : ℕ → ℝ) (globalStd : ℝ) :
    (∀ l, angleStdUsed true (some l) stdVec globalStd = Sum.inl (stdVec l))
    ∧ (∀ label, angleStdUsed false label stdVec globalStd = Sum.inl globalStd)
    ∧ angleStdUsed true none stdVec globalStd = Sum.inr stdVec := by
  refine ⟨fun l => rfl, fun label => ?_, rfl⟩
  cases label <;> rfl

/-- C3 (counterexample): with adaptive sampling enabled and labels
absent, the std object used by `_sample_embd` is the per-class vector
(here constantly `2`), not the scalar configuration value `1`: no scalar
is selected at all. -/
theorem angle_std_vector_without_labels :
    angleStdUsed true none (fun _ => (2:ℝ)) 1 = Sum.inr (fun _ => (2:ℝ))
    ∧ (angleStdUsed true none (fun _ => (2:ℝ)) 1).isLeft = false :=
  ⟨rfl, rfl⟩

/- ### Class mixing (`_mix_embd`, lines 100–112) -/

/-- One sample of `_mix_embd`: draw a candidate index, remap it to a
negative class, draw `alpha = alpha_class_mixing * u` with `u` uniform
on `[0,1)`, interpolate toward that class center and re-normalize. -/
noncomputable def mixEmbd (n : ℕ) (ε : ℝ) (e : Fin n → ℝ) (label : ℕ)
    (centers : ℕ → Fin n → ℝ) (alphaClassMixing u : ℝ) (sampledId : ℕ) : Fin n → ℝ :=
  normalizeV n ε (fun i =>
    (1 - alphaClassMixing * u) * e i
      + alphaClassMixing * u * centers (remapNeg sampledId label) i)

/-- Angular distance between two unit vectors: the arccosine of their
inner product. -/
noncomputable def angDist (n : ℕ) (u v : Fin n → ℝ) : ℝ :=
  Real.arccos (dot n u v)

/-- Core geometric bound for class mixing: interpolating a unit
embedding toward a unit center with coefficient `α < 1/10` and
re-normalizing moves the embedding by an angle of at most
`arcsin(α / (1 - α))`. -/
theorem mix_angle_core (n : ℕ) (ε : ℝ) (e c : Fin n → ℝ) (α : ℝ)
    (hε : 0 < ε) (hε2 : ε ≤ 1/2) (he : norm2 n e = 1) (hc : norm2 n c = 1)
    (hα0 : 0 ≤ α) (hα1 : α < 1/10) :
    Real.arccos (dot n e (normalizeV n ε (fun i => (1 - α) * e i + α * c i)))
      ≤ Real.arcsin (α / (1 - α)) := by
  have ht2 : dot n e c ^ 2 ≤ 1 := by
    have h := dot_sq_le n e c
    rw [he, hc] at h
    linarith
  have htlo : -1 ≤ dot n e c := by nlinarith
  have hthi : dot n e c ≤ 1 := by nlinarith
  have hQ : norm2 n (fun i => (1 - α) * e i + α * c i)
      = (1 - α)^2 + 2*(1-α)*α*(dot n e c) + α^2 := by
    rw [norm2_combo, he, hc]
    ring
  have hP : dot n e (fun i => (1 - α) * e i + α * c i) = (1 - α) + α * dot n e c := by
    rw [dot_combo, show dot n e e = 1 from he]
    ring
  have hP45 : 4/5 < (1 - α) + α * dot n e c := by nlinarith
  have hQpos : (0:ℝ) < (1 - α)^2 + 2*(1-α)*α*(dot n e c) + α^2 := by
    nlinarith [mul_nonneg (sq_nonneg α) (sub_nonneg.mpr ht2), hP45]
  have hsqQ : Real.sqrt ((1 - α)^2 + 2*(1-α)*α*(dot n e c) + α^2) ^ 2
      = (1 - α)^2 + 2*(1-α)*α*(dot n e c) + α^2 := Real.sq_sqrt (le_of_lt hQpos)
  have hS45 : 4/5 < Real.sqrt ((1 - α)^2 + 2*(1-α)*α*(dot n e c) + α^2) := by
    have h1 : (4/5:ℝ)^2 < (1 - α)^2 + 2*(1-α)*α*(dot n e c) + α^2 := by
      nlinarith [mul_nonneg (sq_nonneg α) (sub_nonneg.mpr ht2), hP45]
    calc (4/5:ℝ) = Real.sqrt ((4/5)^2) := (Real.sqrt_sq (by norm_num)).symm
      _ < Real.sqrt ((1 - α)^2 + 2*(1-α)*α*(dot n e c) + α^2) :=
          Real.sqrt_lt_sqrt (by positivity) h1
  have hmax : max (Real.sqrt (norm2 n (fun i => (1 - α) * e i + α * c i))) ε
      = Real.sqrt ((1 - α)^2 + 2*(1-α)*α*(dot n e c) + α^2) := by
    rw [hQ]
    exact max_eq_left (by linarith)
  have hdotmix : dot n e (normalizeV n ε (fun i => (1 - α) * e i + α * c i))
      = ((1 - α) + α * dot n e c)
        / Real.sqrt ((1 - α)^2 + 2*(1-α)*α*(dot n e c) + α^2) := by
    unfold normalizeV
    rw [dot_div_right, hmax, hP]
  rw [hdotmix]
  have hw0 : 0 ≤ ((1 - α) + α * dot n e c)
      / Real.sqrt ((1 - α)^2 + 2*(1-α)*α*(dot n e c) + α^2) :=
    div_nonneg (by linarith) (by linarith)
  have h1α : (0:ℝ) < 1 - α := by linarith
  have hs0 : 0 ≤ α / (1 - α) := div_nonneg hα0 (le_of_lt h1α)
  have hs1 : α / (1 - α) ≤ 1 := by
    rw [div_le_one h1α]
    linarith
  have hkey : 1 - (((1 - α) + α * dot n e c)
      / Real.sqrt ((1 - α)^2 + 2*(1-α)*α*(dot n e c) + α^2))^2 ≤ (α / (1 - α))^2 := by
    rw [div_pow, hsqQ,
      show (1:ℝ) - ((1 - α) + α * dot n e c)^2 / ((1 - α)^2 + 2*(1-α)*α*(dot n e c) + α^2)
        = (((1 - α)^2 + 2*(1-α)*α*(dot n e c) + α^2) - ((1 - α) + α * dot n e c)^2)
          / ((1 - α)^2 + 2*(1-α)*α*(dot n e c) + α^2) from by field_simp,
      div_le_iff₀ hQpos, div_pow, div_mul_eq_mul_div, le_div_iff₀ (pow_pos h1α 2)]
    nlinarith [mul_nonneg (sq_nonneg α) (sq_nonneg ((1-α) * dot n e c + α))]
  have hsqrtle : Real.sqrt (1 - (((1 - α) + α * dot n e c)
      / Real.sqrt ((1 - α)^2 + 2*(1-α)*α*(dot n e c) + α^2))^2) ≤ α / (1 - α) :=
    calc Real.sqrt (1 - (((1 - α) + α * dot n e c)
          / Real.sqrt ((1 - α)^2 + 2*(1-α)*α*(dot n e c) + α^2))^2)
        ≤ Real.sqrt ((α / (1 - α))^2) := Real.sqrt_le_sqrt hkey
      _ = α / (1 - α) := Real.sqrt_sq hs0
  have harcmem : Real.arccos (((1 - α) + α * dot n e c)
      / Real.sqrt ((1 - α)^2 + 2*(1-α)*α*(dot n e c) + α^2))
      ∈ Set.Icc (-(Real.pi/2)) (Real.pi/2) :=
    ⟨by linarith [Real.arccos_nonneg (((1 - α) + α * dot n e c)
        / Real.sqrt ((1 - α)^2 + 2*(1-α)*α*(dot n e c) + α^2)), Real.pi_pos],
      Real.arccos_le_pi_div_two.mpr hw0⟩
  have harsmem : Real.arcsin (α / (1 - α)) ∈ Set.Icc (-(Real.pi/2)) (Real.pi/2) :=
    Real.arcsin_mem_Icc _
  refine (Real.strictMonoOn_sin.le_iff_le harcmem harsmem).mp ?_
  rw [Real.sin_arccos, Real.sin_arcsin (by linarith) hs1]
  exact hsqrtle

/-- C4 (amended): with `class_mixing_alpha = 0.1` and `α = 0.1 · u`,
`u ∈ [0,1)`, the re-normalized mixed embedding is within angular
distance `arcsin(α / (1 - α))` of the input — a bound that is tight and
approaches `arcsin(1/9) > arcsin(0.1)` as `u → 1`. -/
theorem class_mixing_angle_bound (n : ℕ) (ε : ℝ) (e : Fin n → ℝ) (label sampledId : ℕ)
    (centers : ℕ → Fin n → ℝ) (u : ℝ)
    (hε : 0 < ε) (hε2 : ε ≤ 1/2) (he : norm2 n e = 1)
    (hc : norm2 n (centers (remapNeg sampledId label)) = 1)
    (hu0 : 0 ≤ u) (hu1 : u < 1) :
    angDist n e (mixEmbd n ε e label centers (1/10) u sampledId)
      ≤ Real.arcsin ((1/10 * u) / (1 - 1/10 * u)) :=
  mix_angle_core n ε e (centers (remapNeg sampledId label)) (1/10 * u) hε hε2 he hc
    (mul_nonneg (by norm_num) hu0) (by linarith)


/-- C4 (counterexample): with unit embedding `(1,0)`, negative-class
center `(-19/181, 180/181)` and `u = 19/20` (so `α = 19/200 < 0.1`), the
mixture is `(162/181, 171/1810)`, of norm `9/10`; re-normalized it is
`(180/181, 19/181)`, at angular distance `arccos(180/181)` from the
input, and `sin` of that distance is `19/181 > 1/10`: the claimed bound
`arcsin(0.1)` is exceeded. -/
theorem class_mixing_angle_exceeds_bound :
    Real.arcsin (1/10)
      < angDist 2 ![1, 0]
          (mixEmbd 2 (1/1000000000000) ![1, 0] 0 (fun _ => ![-(19/181), 180/181])
            (1/10) (19/20) 0) := by
  have h1 : norm2 2 (![1, 0] : Fin 2 → ℝ) = 1 := by
    simp [norm2, dot, Fin.sum_univ_two]
  have h2 : norm2 2 (![-(19/181), 180/181] : Fin 2 → ℝ) = 1 := by
    simp [norm2, dot, Fin.sum_univ_two]
    norm_num
  have h3 : dot 2 (![1, 0] : Fin 2 → ℝ) (![-(19/181), 180/181] : Fin 2 → ℝ) = -(19/181) := by
    simp [dot, Fin.sum_univ_two]
  have hq : norm2 2 (fun i => (1 - 1/10 * (19/20)) * (![1, 0] : Fin 2 → ℝ) i
      + 1/10 * (19/20) * (![-(19/181), 180/181] : Fin 2 → ℝ) i) = 81/100 := by
    rw [norm2_combo, h1, h2, h3]
    norm_num
  have hsq : Real.sqrt (81/100) = 9/10 := by
    rw [show (81/100 : ℝ) = (9/10)^2 by norm_num]
    exact Real.sqrt_sq (by norm_num)
  have hmix : mixEmbd 2 (1/1000000000000) ![1, 0] 0 (fun _ => ![-(19/181), 180/181])
      (1/10) (19/20) 0 = ![180/181, 19/181] := by
    funext i
    show ((1 - 1/10 * (19/20)) * (![1, 0] : Fin 2 → ℝ) i
        + 1/10 * (19/20) * (![-(19/181), 180/181] : Fin 2 → ℝ) i)
        / max (Real.sqrt (norm2 2 (fun i => (1 - 1/10 * (19/20)) * (![1, 0] : Fin 2 → ℝ) i
            + 1/10 * (19/20) * (![-(19/181), 180/181] : Fin 2 → ℝ) i))) (1/1000000000000)
        = (![180/181, 19/181] : Fin 2 → ℝ) i
    rw [hq, hsq, max_eq_left (by norm_num)]
    fin_cases i <;> norm_num
  have hdot : dot 2 (![1, 0] : Fin 2 → ℝ) (![180/181, 19/181] : Fin 2 → ℝ) = 180/181 := by
    simp [dot, Fin.sum_univ_two]
  have hang : angDist 2 ![1, 0]
      (mixEmbd 2 (1/1000000000000) ![1, 0] 0 (fun _ => ![-(19/181), 180/181]) (1/10) (19/20) 0)
      = Real.arccos (180/181) := by
    unfold angDist
    rw [hmix, hdot]
  rw [hang]
  have hs1 : Real.sin (Real.arcsin (1/10)) = 1/10 :=
    Real.sin_arcsin (by norm_num) (by norm_num)
  have hs2 : Real.sin (Real.arccos (180/181)) = 19/181 := by
    rw [Real.sin_arccos, show (1 : ℝ) - (180/181)^2 = (19/181)^2 by norm_num]
    exact Real.sqrt_sq (by norm_num)
  have ha : Real.arcsin (1/10) ∈ Set.Icc (-(Real.pi/2)) (Real.pi/2) :=
    Real.arcsin_mem_Icc _
  have hb : Real.arccos (180/181) ∈ Set.Icc (-(Real.pi/2)) (Real.pi/2) :=
    ⟨by linarith [Real.arccos_nonneg (180/181 : ℝ), Real.pi_pos],
      Real.arccos_le_pi_div_two.mpr (by norm_num)⟩
  refine (Real.strictMonoOn_sin.lt_iff_lt ha hb).mp ?_
  rw [hs1, hs2]
  norm_num

/-- Witness for `class_mixing_angle_bound` at a concrete input
(`u = 0`: the mixture is the unmixed embedding, at angular distance
`arccos 1 = 0 ≤ arcsin 0`). -/
theorem class_mixing_angle_bound_witness :
    (0:ℝ) < 1/4 ∧ (1/4:ℝ) ≤ 1/2 ∧ norm2 2 ![(1:ℝ), 0] = 1
    ∧ norm2 2 ((fun _ => (![0, 1] : Fin 2 → ℝ)) (remapNeg 0 0)) = 1
    ∧ (0:ℝ) ≤ 0 ∧ (0:ℝ) < 1
    ∧ angDist 2 ![1, 0] (mixEmbd 2 (1/4) ![1, 0] 0 (fun _ => ![0, 1]) (1/10) 0 0)
        ≤ Real.arcsin ((1/10 * 0) / (1 - 1/10 * 0)) :=
  ⟨by norm_num, by norm_num, by simp [norm2, dot, Fin.sum_univ_two],
    by simp [norm2, dot, Fin.sum_univ_two], le_refl 0, by norm_num,
    class_mixing_angle_bound 2 (1/4) ![1, 0] 0 0 (fun _ => ![0, 1]) 0
      (by norm_num) (by norm_num) (by simp [norm2, dot, Fin.sum_univ_two])
      (by simp [norm2, dot, Fin.sum_univ_two]) (le_refl 0) (by norm_num)⟩

/- ### Construction (`__init__`, lines 15–79) -/

/-- Construction-time configuration options steering the embedding head
and its augmenters (remaining options are forwarded to collaborators).
`classSizes` models the optional `self.class_sizes` statistics dict as a
partial map from class id to sample count. -/
structure Config where
  embedding : Bool
  embdSize : ℤ
  enableSampling : Bool
  adaptiveSampling : Bool
  samplingAngleStd : Option ℝ
  classSizes : Option (ℕ → Option ℕ)
  enableClassMixing : Bool
  classMixingAlpha : ℝ

/-- `self.with_embedding = embedding and self.embd_size > 0`. -/
def Config.withEmbedding (cfg : Config) : Bool :=
  cfg.embedding && decide (0 < cfg.embdSize)

/-- Scalar value of the `sampling_angle_std` option (`0` when the option
is absent; it is only consulted when present). -/
noncomputable def Config.stdVal (cfg : Config) : ℝ :=
  cfg.samplingAngleStd.getD 0

/-- `self.enable_sampling = (with_embedding and enable_sampling and
sampling_angle_std is not None and sampling_angle_std > 0.0)`. -/
noncomputable def Config.enableSamplingEff (cfg : Config) : Prop :=
  cfg.withEmbedding = true ∧ cfg.enableSampling = true
    ∧ cfg.samplingAngleStd.isSome = true ∧ 0 < cfg.stdVal

/-- `self.adaptive_sampling = (enable_sampling and adaptive_sampling and
class_sizes is not None)`. -/
noncomputable def Config.adaptiveSamplingEff (cfg : Config) : Prop :=
  cfg.enableSamplingEff ∧ cfg.adaptiveSampling = true ∧ cfg.classSizes.isSome = true

/-- The only construction-time check tied to sampling:
`assert sampling_angle_std < 0.5 * np.pi`, evaluated when effective
sampling is enabled; construction raises exactly when it fails. -/
noncomputable def Config.initRaises (cfg : Config) : Prop :=
  cfg.enableSamplingEff ∧ ¬ cfg.stdVal < Real.pi / 2

/-- C5 (counterexample): a configuration requesting adaptive sampling
without class-count statistics (`class_sizes is None`), with embedding
on and a valid std `0.1 < π/2`, constructs without raising anything; the
effective adaptive flag is silently false instead. -/
theorem init_no_raise_without_class_sizes :
    (Config.mk true 128 true true (some (1/10)) none false (1/10)).adaptiveSampling = true
    ∧ (Config.mk true 128 true true (some (1/10)) none false (1/10)).classSizes = none
    ∧ ¬ (Config.mk true 128 true true (some (1/10)) none false (1/10)).initRaises
    ∧ ¬ (Config.mk true 128 true true (some (1/10)) none false (1/10)).adaptiveSamplingEff := by
  refine ⟨rfl, rfl, ?_, ?_⟩
  · rintro ⟨hse, hpi⟩
    apply hpi
    show (1:ℝ)/10 < Real.pi / 2
    linarith [Real.pi_gt_three]
  · rintro ⟨hse, had, hcs⟩
    simp at hcs

/-- C5 (amended): requesting adaptive sampling without class-count
statistics does not raise at construction; the effective adaptive flag
is silently disabled, and construction succeeds whenever the angular-std
assert (the only sampling-related construction check) holds. -/
theorem adaptive_silent_fallback (cfg : Config) (h : cfg.classSizes = none) :
    ¬ cfg.adaptiveSamplingEff
    ∧ (cfg.stdVal < Real.pi / 2 → ¬ cfg.initRaises) := by
  constructor
  · rintro ⟨hse, had, hcs⟩
    rw [h] at hcs
    simp at hcs
  · intro hstd
    rintro ⟨hse, hpi⟩
    exact hpi hstd

/-- Witness for `adaptive_silent_fallback` at a concrete configuration. -/
theorem adaptive_silent_fallback_witness :
    (Config.mk false 0 false true none none false 0).classSizes = none
    ∧ (¬ (Config.mk false 0 false true none none false 0).adaptiveSamplingEff
      ∧ ((Config.mk false 0 false true none none false 0).stdVal < Real.pi / 2 →
          ¬ (Config.mk false 0 false true none none false 0).initRaises)) :=
  ⟨rfl, adaptive_silent_fallback _ rfl⟩

/- ### Per-class angular std vector (`__init__`, lines 69–74) -/

/-- Per-class counts: `counts = np.ones(num_classes)`, then
`counts[class_id] = class_size` for each recorded class — a class id
absent from the statistics keeps count `1`. -/
def classCounts (classSizes : ℕ → Option ℕ) (c : ℕ) : ℕ :=
  (classSizes c).getD 1

/-- The Per-Class Angular Std Vector:
`class_angle_std = sampling_angle_std * np.power(counts, -1. / 4.)`. -/
noncomputable def classAngleStd (base : ℝ) (classSizes : ℕ → Option ℕ) (c : ℕ) : ℝ :=
  base * (classCounts classSizes c : ℝ) ^ (-(1:ℝ)/4)

/-- C6: the per-class std equals `base · count^(-1/4)` for every
recorded class, is strictly decreasing in the class count (for positive
counts), and for counts `{0: 1, 1: 100}` the ratio `std(0) / std(1)` is
exactly `100^(1/4)`. -/
theorem class_angle_std_properties (base : ℝ) (classSizes : ℕ → Option ℕ) (hb : 0 < base) :
    (∀ c k, classSizes c = some k →
        classAngleStd base classSizes c = base * (k : ℝ) ^ (-(1:ℝ)/4))
    ∧ (∀ c₁ c₂ : ℕ, 0 < classCounts classSizes c₁ →
        classCounts classSizes c₁ < classCounts classSizes c₂ →
        classAngleStd base classSizes c₂ < classAngleStd base classSizes c₁)
    ∧ classAngleStd base (fun c => if c = 0 then some 1 else if c = 1 then some 100 else none) 0
        / classAngleStd base (fun c => if c = 0 then some 1 else if c = 1 then some 100 else none) 1
      = (100 : ℝ) ^ ((1:ℝ)/4) := by
  refine ⟨?_, ?_, ?_⟩
  · intro c k h
    unfold classAngleStd classCounts
    rw [h]
    rfl
  · intro c₁ c₂ h1 h2
    unfold classAngleStd
    apply mul_lt_mul_of_pos_left _ hb
    apply Real.rpow_lt_rpow_of_neg
    · exact_mod_cast h1
    · exact_mod_cast h2
    · norm_num
  · have h0 : classCounts
        (fun c => if c = 0 then some 1 else if c = 1 then some 100 else none) 0 = 1 := rfl
    have h1 : classCounts
        (fun c => if c = 0 then some 1 else if c = 1 then some 100 else none) 1 = 100 := rfl
    unfold classAngleStd
    rw [h0, h1, Nat.cast_one, Real.one_rpow, mul_one,
      show ((100:ℕ):ℝ) = (100:ℝ) by norm_num,
      show (-(1:ℝ)/4) = -((1:ℝ)/4) by norm_num,
      Real.rpow_neg (by norm_num : (0:ℝ) ≤ 100)]
    have hx : (0:ℝ) < (100:ℝ) ^ ((1:ℝ)/4) := Real.rpow_pos_of_pos (by norm_num) _
    field_simp

/-- Witness for `class_angle_std_properties` with `base_std = 0.2` and
class counts `{0: 1, 1: 100}` (spec end-to-end scenario 3). -/
theorem class_angle_std_properties_witness :
    (0:ℝ) < 1/5
    ∧ ((∀ (c : ℕ) (k : ℕ),
          (fun c => if c = 0 then some 1 else if c = 1 then some 100 else none) c = some k →
          classAngleStd (1/5)
              (fun c => if c = 0 then some 1 else if c = 1 then some 100 else none) c
            = 1/5 * (k : ℝ) ^ (-(1:ℝ)/4))
      ∧ (∀ c₁ c₂ : ℕ,
          0 < classCounts (fun c => if c = 0 then some 1 else if c = 1 then some 100 else none) c₁ →
          classCounts (fun c => if c = 0 then some 1 else if c = 1 then some 100 else none) c₁
            < classCounts (fun c => if c = 0 then some 1 else if c = 1 then some 100 else none) c₂ →
          classAngleStd (1/5)
              (fun c => if c = 0 then some 1 else if c = 1 then some 100 else none) c₂
            < classAngleStd (1/5)
                (fun c => if c = 0 then some 1 else if c = 1 then some 100 else none) c₁)
      ∧ classAngleStd (1/5)
            (fun c => if c = 0 then some 1 else if c = 1 then some 100 else none) 0
          / classAngleStd (1/5)
              (fun c => if c = 0 then some 1 else if c = 1 then some 100 else none) 1
        = (100 : ℝ) ^ ((1:ℝ)/4)) :=
  ⟨by norm_num,
    class_angle_std_properties (1/5)
      (fun c => if c = 0 then some 1 else if c = 1 then some 100 else none) (by norm_num)⟩

/-- C10: a class id absent from the statistics is assigned count `1`,
hence per-class std equal to the base std; and when every recorded count
is at least `1` (counts are sample counts) the base std is the maximum
entry of the vector. -/
theorem absent_class_max_std (base : ℝ) (classSizes : ℕ → Option ℕ)
    (hb : 0 ≤ base) (hpos : ∀ c k, classSizes c = some k → 1 ≤ k) :
    (∀ c, classSizes c = none → classAngleStd base classSizes c = base)
    ∧ (∀ c, classAngleStd base classSizes c ≤ base) := by
  constructor
  · intro c h
    unfold classAngleStd classCounts
    rw [h]
    show base * ((1:ℕ) : ℝ) ^ (-(1:ℝ)/4) = base
    rw [Nat.cast_one, Real.one_rpow, mul_one]
  · intro c
    unfold classAngleStd
    have h1 : (1:ℝ) ≤ (classCounts classSizes c : ℝ) := by
      have hn : 1 ≤ classCounts classSizes c := by
        unfold classCounts
        cases hcs : classSizes c with
        | none => simp
        | some k => simpa using hpos c k hcs
      exact_mod_cast hn
    calc base * (classCounts classSizes c : ℝ) ^ (-(1:ℝ)/4)
        ≤ base * 1 := mul_le_mul_of_nonneg_left
          (Real.rpow_le_one_of_one_le_of_nonpos h1 (by norm_num)) hb
      _ = base := mul_one base

/-- Witness for `absent_class_max_std` at concrete statistics
`{0: 4}`. -/
theorem absent_class_max_std_witness :
    (0:ℝ) ≤ 1/2
    ∧ (∀ (c : ℕ) (k : ℕ), (fun c => if c = 0 then some 4 else none) c = some k → 1 ≤ k)
    ∧ ((∀ c, (fun c => if c = 0 then some 4 else none) c = none →
          classAngleStd (1/2) (fun c => if c = 0 then some 4 else none) c = 1/2)
      ∧ (∀ c, classAngleStd (1/2) (fun c => if c = 0 then some 4 else none) c ≤ 1/2)) := by
  have hpos : ∀ (c : ℕ) (k : ℕ),
      (fun c => if c = 0 then some 4 else none) c = some k → 1 ≤ k := by
    intro c k h
    by_cases hc : c = 0
    · simp [hc] at h
      omega
    · simp [hc] at h
  exact ⟨by norm_num, hpos,
    absent_class_max_std (1/2) (fun c => if c = 0 then some 4 else none) (by norm_num) hpos⟩

/- ### Forward orchestration (`forward`, lines 137–167) -/

/-- Per-sample random draws consumed by the augmenters: the candidate
class index and uniform coefficient of `_mix_embd`, and the direction
and normal draw of `_sample_embd`. -/
structure Rand (nEmb : ℕ) where
  sampledId : ℕ
  mixU : ℝ
  dirG : Fin nEmb → ℝ
  z : ℝ

/-- State of a constructed head as consumed by `forward`: the effective
flags from `__init__` plus its (abstract) learned collaborators —
dropout, the channel projector `fc_pre_angular` (identity when channel
counts already match), the angular score layer `fc_angular` with its raw
class-center matrix, and the plain linear scorer `fc_cls_out`. -/
structure HeadModel (nIn nEmb nCls : ℕ) where
  withEmbedding : Bool
  enableClassMixing : Bool
  enableSampling : Bool
  adaptiveSampling : Bool
  alphaClassMixing : ℝ
  samplingStdVec : ℕ → ℝ
  samplingStdGlobal : ℝ
  eps : ℝ
  dropoutFn : Bool → (Fin nIn → ℝ) → (Fin nIn → ℝ)
  preAngular : (Fin nIn → ℝ) → (Fin nEmb → ℝ)
  fcAngular : (Fin nEmb → ℝ) → (Fin nCls → ℝ)
  centersRaw : ℕ → Fin nEmb → ℝ
  fcClsOut : (Fin nIn → ℝ) → (Fin nCls → ℝ)

/-- One sample of `forward` on the already-squashed feature vector.
Returns `none` on the error paths (class mixing in training without
labels, where `torch.randint_like(labels, ...)` raises; and geodesic
sampling handed the whole per-class std vector, where broadcasting
breaks the embedding shape).  Otherwise returns the score vector paired
with the extra data `(norm_embd` in embedding mode, `None` otherwise)
when `return_extra_data` is set. -/
noncomputable def forward (nIn nEmb nCls : ℕ) (h : HeadModel nIn nEmb nCls)
    (training : Bool) (x : Fin nIn → ℝ) (label : Option ℕ) (r : Rand nEmb)
    (returnExtra : Bool) :
    Option ((Fin nCls → ℝ) × Option (Option (Fin nEmb → ℝ))) :=
  let x1 := h.dropoutFn training x
  if h.withEmbedding then
    let normEmbd := normalizeV nEmb h.eps (h.preAngular x1)
    let mixedOpt : Option (Fin nEmb → ℝ) :=
      if training && h.enableClassMixing then
        match label with
        | none => none
        | some lbl =>
            some (mixEmbd nEmb h.eps normEmbd lbl
              (fun c => normalizeV nEmb h.eps (h.centersRaw c))
              h.alphaClassMixing r.mixU r.sampledId)
      else some normEmbd
    match mixedOpt with
    | none => none
    | some e1 =>
        let sampledOpt : Option (Fin nEmb → ℝ) :=
          if training && h.enableSampling then
            match angleStdUsed h.adaptiveSampling label h.samplingStdVec h.samplingStdGlobal with
            | Sum.inl s => some (sampleEmbd nEmb h.eps e1 r.dirG s r.z)
            | Sum.inr _ => none
          else some e1
        match sampledOpt with
        | none => none
        | some e2 =>
            some (h.fcAngular e2, if returnExtra then some (some e2) else none)
  else
    some (h.fcClsOut x1, if returnExtra then some none else none)

/-- C7: with the training flag off, `forward` is insensitive to the
mixing/sampling configuration flags: a head with both augmenters enabled
produces exactly the output of the same head with both disabled, for
every input, label and random draw — the augmenters are inert outside
training mode. -/
theorem forward_inference_augmenters_inert (nIn nEmb nCls : ℕ)
    (h : HeadModel nIn nEmb nCls) (m₁ s₁ a₁ m₂ s₂ a₂ : Bool)
    (x : Fin nIn → ℝ) (label : Option ℕ) (r : Rand nEmb) (returnExtra : Bool) :
    forward nIn nEmb nCls
        { h with enableClassMixing := m₁, enableSampling := s₁, adaptiveSampling := a₁ }
        false x label r returnExtra
      = forward nIn nEmb nCls
          { h with enableClassMixing := m₂, enableSampling := s₂, adaptiveSampling := a₂ }
          false x label r returnExtra := rfl

/-- C9: in non-embedding mode, `forward` with the `return_extra_data`
flag set returns the plain-scorer output paired with `None` in the
embedding slot — no embedding tensor is ever produced. -/
theorem forward_no_embedding_returns_none (nIn nEmb nCls : ℕ)
    (h : HeadModel nIn nEmb nCls) (training : Bool) (x : Fin nIn → ℝ)
    (label : Option ℕ) (r : Rand nEmb) (hne : h.withEmbedding = false) :
    forward nIn nEmb nCls h training x label r true
      = some (h.fcClsOut (h.dropoutFn training x), some none) := by
  unfold forward
  rw [hne]
  simp

/-- Witness for `forward_no_embedding_returns_none` at a concrete
head. -/
theorem forward_no_embedding_returns_none_witness :
    (⟨false, false, false, false, 0, fun _ => 0, 0, 1, fun _ v => v, fun v => v,
        fun v => v, fun _ _ => 0, fun v => v⟩ : HeadModel 1 1 1).withEmbedding = false
    ∧ forward 1 1 1
        (⟨false, false, false, false, 0, fun _ => 0, 0, 1, fun _ v => v, fun v => v,
          fun v => v, fun _ _ => 0, fun v => v⟩ : HeadModel 1 1 1)
        false (fun _ => 0) none ⟨0, 0, fun _ => 0, 0⟩ true
      = some ((⟨false, false, false, false, 0, fun _ => 0, 0, 1, fun _ v => v, fun v => v,
            fun v => v, fun _ _ => 0, fun v => v⟩ : HeadModel 1 1 1).fcClsOut
          ((⟨false, false, false, false, 0, fun _ => 0, 0, 1, fun _ v => v, fun v => v,
            fun v => v, fun _ _ => 0, fun v => v⟩ : HeadModel 1 1 1).dropoutFn false
              (fun _ => 0)), some none) :=
  ⟨rfl,
    forward_no_embedding_returns_none 1 1 1
      ⟨false, false, false, false, 0, fun _ => 0, 0, 1, fun _ v => v, fun v => v,
        fun v => v, fun _ _ => 0, fun v => v⟩
      false (fun _ => 0) none ⟨0, 0, fun _ => 0, 0⟩ rfl⟩

/- ### Loss aggregation (`loss`, lines 169–183) -/

/-- Replacement of `'_'` by `'/'` in a key, as done by
`extra_loss_name.replace('_', '/')` (the pattern is a single character,
so the replacement is a character map). -/
def underscoreToSlash (s : String) : String :=
  ⟨s.data.map fun ch => if ch = '_' then '/' else ch⟩

/-- The `loss` step as an association list in insertion order: the
primary classification loss keyed `'loss/cls' + name`, the optional
`last_scale` logging value keyed `'scale/cls' + name` (present only when
the loss implementation exposes it), each configured extra loss under
its transformed name plus the suffix, and — in embedding mode — the
angular layer's own regularization terms.  The values and the extra /
angular-layer key sets are abstract collaborator outputs. -/
def lossStep (withEmbedding : Bool) (name : String) (clsLoss : ℝ) (lastScale : Option ℝ)
    (lossesExtra : List (String × ℝ)) (fcAngularLosses : List (String × ℝ)) :
    List (String × ℝ) :=
  [("loss/cls" ++ name, clsLoss)]
    ++ (match lastScale with
        | some s => [("scale/cls" ++ name, s)]
        | none => [])
    ++ lossesExtra.map (fun p => (underscoreToSlash p.1 ++ name, p.2))
    ++ (if withEmbedding then fcAngularLosses else [])

/-- C8 (counterexample): when the classification loss exposes a
`last_scale`, the returned mapping contains the key `'scale/cls'`,
which does not start with `'loss/'` — not every term is keyed
`loss/<component>/<name>`. -/
theorem loss_scale_key_not_loss_keyed :
    ("scale/cls" ++ "", (0:ℝ)) ∈ lossStep true "" 0 (some 0) [] []
    ∧ ¬ ("scale/cls" ++ "").data.take 5 = "loss/".data := by
  constructor
  · simp [lossStep]
  · decide

/-- C8 (amended): the mapping always contains the primary
classification loss under `'loss/cls' + name` (a `loss/`-keyed term);
the optional scale value is keyed `'scale/cls' + name` instead of
`loss/...`; extra losses are keyed by their configured names with
underscores replaced by slashes; and an empty extra-losses map is
handled without error, the result being just the primary term, the
optional scale term and the embedding-mode regularization terms. -/
theorem loss_keys (withEmbedding : Bool) (name : String) (clsLoss : ℝ)
    (lastScale : Option ℝ) (lossesExtra fcAngularLosses : List (String × ℝ)) :
    ("loss/cls" ++ name, clsLoss)
        ∈ lossStep withEmbedding name clsLoss lastScale lossesExtra fcAngularLosses
    ∧ ("loss/cls" ++ name).data.take 5 = "loss/".data
    ∧ lossStep withEmbedding name clsLoss lastScale [] fcAngularLosses
        = [("loss/cls" ++ name, clsLoss)]
            ++ (match lastScale with
                | some s => [("scale/cls" ++ name, s)]
                | none => [])
            ++ (if withEmbedding then fcAngularLosses else []) := by
  refine ⟨by simp [lossStep], ?_, by simp [lossStep]⟩
  rw [String.data_append]
  rfl

end ClsHead
